import Mathlib

/-!
Verification development for the rio content-addressed packaging engine
(tar transmat unpack pipeline, warehouse failover, copy placer, CLI output).

The Go sources are shallowly embedded: relative paths become lists of path
components, the filesystem becomes an association list from paths to node
metadata, and each function of interest becomes a Lean function mirroring the
source control flow.  Components of the repository that are referenced but not
present in the provided sources (filter application, the fshash bucket
helpers, content hashing, base58, exit-code mapping) are modelled from the
specification, and are marked as such in their doc comments.
-/

namespace Rio

/-- Relative path, as a list of path components.  `[]` is the fileset root,
mirroring `fs.RelPath` whose zero value denotes `"."`. -/
abbrev Name := List String

/-- String form of a relative path, mirroring `RelPath.String` as consumed by
the breakout check in `unpackTar` (components joined by slashes). -/
def nameStr : Name → String
  | [] => "."
  | cs => String.intercalate "/" cs

/-- Nanosecond timestamp, mirroring the `time.Time` values rio stores. -/
structure Mtime where
  sec : Int
  nsec : Nat
deriving DecidableEq, Repr

/-- Node types, mirroring `fs.Type_*`. -/
inductive FType where
  | Type_File
  | Type_Dir
  | Type_Symlink
  | Type_Hardlink
  | Type_CharDevice
  | Type_Device
  | Type_Fifo
deriving DecidableEq, Repr

/-- Per-node metadata, mirroring `fs.Metadata`. -/
structure Metadata where
  name : Name
  ftype : FType
  perms : Nat
  uid : Nat
  gid : Nat
  mtime : Mtime
  linkname : String := ""
deriving DecidableEq, Repr

/-- Error categories of the rio error taxonomy (`rio.Err*` plus the raw
filesystem catch-all). -/
inductive ErrC where
  | ErrUsage
  | ErrWarehouseUnavailable
  | ErrWareNotFound
  | ErrWareCorrupt
  | ErrWareHashMismatch
  | ErrCancelled
  | ErrLocalCacheProblem
  | ErrAssemblyInvalid
  | ErrInoperablePath
  | ErrFsRaw
deriving DecidableEq, Repr

/-- Ware identifier, mirroring `api.WareID`. -/
structure WareID where
  ptype : String
  hash : String
deriving DecidableEq, Repr

/-- Mirrors `api.WareID.String`: `"<packType>:<hash>"`. -/
def WareID.str (w : WareID) : String := w.ptype ++ ":" ++ w.hash

/-- Structured error value, mirroring a go-errcat error with a category, a
message and a details map. -/
structure ErrDetails where
  category : ErrC
  message : String
  details : List (String × String)
deriving DecidableEq, Repr

/-- Filesystem state: an association list from paths to node metadata.  The
first binding for a path is the authoritative one. -/
abbrev FS := List (Name × Metadata)

/-- Mirrors `fs.FS.LStat`: look a node up by path. -/
def FS.lstat : FS → Name → Option Metadata
  | [], _ => none
  | (k, m) :: rest, n => if k = n then some m else FS.lstat rest n

/-- Insert a node, or replace the node already recorded at that path. -/
def FS.setNode : FS → Name → Metadata → FS
  | [], n, m => [(n, m)]
  | (k, x) :: rest, n, m =>
    if k = n then (n, m) :: rest else (k, x) :: FS.setNode rest n m

/-- Mirrors `fs.FS.SetTimesNano` on an existing node: update the recorded
mtime of the node at the given path, a no-op when the path is absent. -/
def FS.setMtimeIfPresent : FS → Name → Mtime → FS
  | [], _, _ => []
  | (k, x) :: rest, n, t =>
    if k = n then (k, { x with mtime := t }) :: rest
    else (k, x) :: FS.setMtimeIfPresent rest n t

/-- Modelled from the spec: `fsOp.PlaceFile` (not among the provided sources)
writes the node of the declared type and applies its permission, ownership
and mtime metadata; any write inside a directory bumps the parent
directory's on-disk mtime (§9 "Directory mtime repair"), which we model by
setting the parent's mtime to the ambient clock value `bump`. -/
def FS.placeFile (fs : FS) (m : Metadata) (bump : Mtime) : FS :=
  let fs1 := fs.setNode m.name m
  if m.name = [] then fs1 else fs1.setMtimeIfPresent m.name.dropLast bump

/-- Paths present in the filesystem. -/
def FS.keys (fs : FS) : List Name := fs.map Prod.fst

/-- Uid/gid filter, mirroring the `{keep, mine, <integer>}` forms of
`api.FilesetFilters` (§3). -/
inductive UGFilter where
  | keep
  | mine
  | exact (n : Nat)
deriving DecidableEq, Repr

/-- Mtime filter: preserve, or force a fixed timestamp. -/
inductive MtimeFilter where
  | keep
  | exact (t : Mtime)
deriving DecidableEq, Repr

/-- Sticky filter: keep or clear the setuid/setgid/sticky bits. -/
inductive StickyFilter where
  | keep
  | zero
deriving DecidableEq, Repr

/-- Processed fileset filters, mirroring `apiutil.FilesetFilters`. -/
structure FilesetFilters where
  uid : UGFilter
  gid : UGFilter
  mtime : MtimeFilter
  sticky : StickyFilter
deriving DecidableEq, Repr

/-- Ambient process identity: the effective uid/gid substituted by the
`mine` filter.  Varies across runs, platforms and process identities. -/
structure Env where
  procUid : Nat
  procGid : Nat
deriving DecidableEq, Repr

/-- Modelled from the spec: the fixed default mtime used when a filter leaves
the timestamp unspecified (§3, "a fixed epoch (to force determinism)"). -/
def defaultMtime : Mtime := ⟨1262304000, 0⟩

/-- Modelled from the spec: `filters.Apply` (§3, §4.3) — mutate uid, gid,
mtime and the sticky bits of a metadata record per the filter set.  A pure
function of the environment, the filters and the record. -/
def filtersApply (env : Env) (f : FilesetFilters) (m : Metadata) : Metadata :=
  { m with
    uid := match f.uid with
      | .keep => m.uid
      | .mine => env.procUid
      | .exact n => n
    gid := match f.gid with
      | .keep => m.gid
      | .mine => env.procGid
      | .exact n => n
    mtime := match f.mtime with
      | .keep => m.mtime
      | .exact t => t
    perms := match f.sticky with
      | .keep => m.perms
      | .zero => m.perms % 512 }

/-- Modelled from the spec: `fshash.DefaultDirMetadata` (§3, §4.6) — the
metadata given to implicitly conjured directories: mode 0755, uid/gid from
the filter when it specifies one, mtime from the filter or the default. -/
def defaultDirMetadata (env : Env) (f : FilesetFilters) : Metadata :=
  { name := []
    ftype := .Type_Dir
    perms := 0o755
    uid := match f.uid with
      | .keep => 0
      | .mine => env.procUid
      | .exact n => n
    gid := match f.gid with
      | .keep => 0
      | .mine => env.procGid
      | .exact n => n
    mtime := match f.mtime with
      | .keep => defaultMtime
      | .exact t => t }

/-- Modelled from the spec: stand-in for the SHA-512/384 digest (§4.2).  The
determinism and verification claims rely only on the digest being a pure
function of its input byte stream, which this tagging function is. -/
def sha384 (s : String) : String := "sha384-" ++ s

/-- Modelled from the spec: stand-in for base58 encoding of the fileset hash
(§3); again only functionality matters to the claims. -/
def base58Encode (s : String) : String := "b58-" ++ s

/-- One record of the hashing bucket: normalized metadata plus the content
hash for regular files, mirroring `fshash.MemoryBucket.AddRecord` inputs. -/
structure Record where
  meta : Metadata
  contentHash : Option String
deriving DecidableEq, Repr

/-- One decoded tar entry: the header already mapped to metadata by
`TarHdrToMetadata` (with the name normalized), plus the entry body. -/
structure TarEntry where
  meta : Metadata
  content : String
deriving DecidableEq, Repr

/-- State threaded through `unpackTar`: the filesystem being populated and
the accumulated hashing bucket. -/
structure PState where
  fsst : FS
  bucket : List Record
deriving DecidableEq, Repr

/-- The chain `[n.take x, n.take (x-1), ..., n.take 1]` of prefixes of a
path, longest first. -/
def takeChain (n : Name) : Nat → List Name
  | 0 => []
  | x + 1 => n.take (x + 1) :: takeChain n x

/-- The proper ancestors of a path, innermost first, excluding the root:
exactly the sequence `parent := name.Dir(); ...; parent = parent.Dir()`
walked by the parent-conjuring loop of `unpackTar` (which stops at the zero
`RelPath`). -/
def properAncestors (n : Name) : List Name := takeChain n (n.length - 1)

/-- Strictly descending path chains: every element is a non-root path
strictly longer than all later elements.  The ancestor chain walked by the
conjuring loop has this shape. -/
def ChainDesc : List Name → Prop
  | [] => True
  | p :: rest => p ≠ [] ∧ (∀ q ∈ rest, q.length < p.length) ∧ ChainDesc rest

/-- One step of the parent-conjuring loop of `unpackTar` (tar_unpack.go
lines 207-220): if the ancestor is absent, place a directory with defaulted
metadata and add its record to the bucket. -/
def conjureOne (env : Env) (f : FilesetFilters) (bump : Mtime)
    (st : PState) (parent : Name) : PState :=
  match st.fsst.lstat parent with
  | some _ => st
  | none =>
    let cm := { defaultDirMetadata env f with name := parent }
    { fsst := st.fsst.placeFile cm bump
      bucket := st.bucket ++ [⟨cm, none⟩] }

/-- The full parent-conjuring loop for one tar entry. -/
def conjureParents (env : Env) (f : FilesetFilters) (bump : Mtime)
    (n : Name) (st : PState) : PState :=
  (properAncestors n).foldl (conjureOne env f bump) st

/-- Character-list comparison behind the prefix test. -/
def charsLead : List Char → List Char → Bool
  | [], _ => true
  | _ :: _, [] => false
  | a :: as, b :: bs => a == b && charsLead as bs

/-- Mirrors `strings.HasPrefix(s, pre)`. -/
def strHasPre (pre s : String) : Bool := charsLead pre.data s.data

/-- Processing of a single tar entry by `unpackTar`: breakout check on the
normalized name, filter application, parent conjuring, then placement and
bucket recording (content-hashing the body for regular files). -/
def processEntry (env : Env) (f : FilesetFilters) (bump : Mtime)
    (st : PState) (e : TarEntry) : Except (ErrC × FS) PState :=
  if strHasPre ".." (nameStr e.meta.name) then
    .error (.ErrWareCorrupt, st.fsst)
  else
    let fmeta := filtersApply env f e.meta
    let st1 := conjureParents env f bump fmeta.name st
    match fmeta.ftype with
    | .Type_File =>
      .ok { fsst := st1.fsst.placeFile fmeta bump
            bucket := st1.bucket ++ [⟨fmeta, some (sha384 e.content)⟩] }
    | _ =>
      .ok { fsst := st1.fsst.placeFile fmeta bump
            bucket := st1.bucket ++ [⟨fmeta, none⟩] }

/-- The tar-entry loop of `unpackTar`: at each entry boundary the stream end
is checked first, then the cancellation token (indexed by the boundary
number), then the entry is processed. -/
def unpackTarLoop (env : Env) (f : FilesetFilters) (bump : Mtime)
    (tok : Nat → Bool) : Nat → PState → List TarEntry → Except (ErrC × FS) PState
  | _, st, [] => .ok st
  | i, st, e :: rest =>
    if tok i then .error (.ErrCancelled, st.fsst)
    else
      match processEntry env f bump st e with
      | .error x => .error x
      | .ok st1 => unpackTarLoop env f bump tok (i + 1) st1 rest

/-- The never-cancelled token. -/
def noCancel : Nat → Bool := fun _ => false

/-- Modelled from the spec: bucket finalization conjures a root record when
the stream supplied none (§4.2 step 3). -/
def ensureRoot (env : Env) (f : FilesetFilters) (recs : List Record) : List Record :=
  if recs.any fun r => decide (r.meta.name = []) then recs
  else recs ++ [⟨defaultDirMetadata env f, none⟩]

/-- Mirrors `bucket.Root()`: the record named by the fileset root. -/
def rootRec (env : Env) (f : FilesetFilters) (recs : List Record) : Record :=
  match recs.find? fun r => decide (r.meta.name = []) with
  | some r => r
  | none => ⟨defaultDirMetadata env f, none⟩

/-- Byte-wise comparison of characters, then lexicographic on strings. -/
def charListLe : List Char → List Char → Bool
  | [], _ => true
  | _ :: _, [] => false
  | a :: as, b :: bs =>
    if a.toNat < b.toNat then true
    else if b.toNat < a.toNat then false
    else charListLe as bs

/-- Lexicographic byte-order on strings, the canonical sibling order (§3). -/
def strLe (a b : String) : Bool := charListLe a.data b.data

/-- Record order: byte comparison of stringified names. -/
def recLe (a b : Record) : Prop :=
  strLe (nameStr a.meta.name) (nameStr b.meta.name) = true

instance : DecidableRel recLe := fun a b => by
  unfold recLe; exact inferInstance

/-- Canonical bucket ordering: records sorted by raw byte comparison of
their names (§4.2 step 1). -/
def sortRecs (recs : List Record) : List Record := List.insertionSort recLe recs

/-- Post-order traversal of the bucket tree: since a parent's name is a
strict byte-order predecessor of its children's names, reversing the sorted
bucket yields children before parents. -/
def postOrderRecs (recs : List Record) : List Record := (sortRecs recs).reverse

/-- One step of the directory mtime repair walk of `unpackTar`
(tar_unpack.go lines 240-246): re-apply the recorded mtime of every
directory record. -/
def repairStep (fs : FS) (r : Record) : FS :=
  if r.meta.ftype = .Type_Dir then fs.setMtimeIfPresent r.meta.name r.meta.mtime
  else fs

/-- The directory mtime repair walk over a record sequence. -/
def repairFold (fs : FS) (L : List Record) : FS := L.foldl repairStep fs

/-- The complete post-pass of `unpackTar` (tar_unpack.go lines 238-252):
post-order mtime repair over the bucket, then a full re-application of the
root record's metadata. -/
def dirMtimeFixup (env : Env) (f : FilesetFilters) (bump : Mtime)
    (fs : FS) (recs : List Record) : FS :=
  (repairFold fs (postOrderRecs recs)).placeFile (rootRec env f recs).meta bump

/-- Duplicate detector over a list of stringified names. -/
def hasDupB : List String → Bool
  | [] => false
  | s :: t => (t.any fun x => x == s) || hasDupB t

/-- Serialization of a node type tag. -/
def serializeFType : FType → String
  | .Type_File => "f"
  | .Type_Dir => "d"
  | .Type_Symlink => "l"
  | .Type_Hardlink => "h"
  | .Type_CharDevice => "c"
  | .Type_Device => "b"
  | .Type_Fifo => "p"

/-- Deterministic canonical serialization of one metadata record
(modelled from the spec, §4.2 step 4: a fixed schema over the normalized
fields). -/
def serializeMeta (m : Metadata) : String :=
  nameStr m.name ++ "|" ++ serializeFType m.ftype ++ "|" ++ toString m.perms
  ++ "|" ++ toString m.uid ++ "|" ++ toString m.gid
  ++ "|" ++ toString m.mtime.sec ++ "." ++ toString m.mtime.nsec
  ++ "|" ++ m.linkname

/-- Serialization of one bucket record (metadata plus content hash). -/
def serializeRec (r : Record) : String :=
  serializeMeta r.meta ++ "#" ++ (match r.contentHash with
    | none => "-"
    | some h => h)

/-- Modelled from the spec: `fshash.HashBucket` (§4.2) — sort records by
name bytewise, reject duplicate names, and digest the canonical serialized
sequence. -/
def hashBucket (recs : List Record) : Except ErrC String :=
  let sorted := sortRecs recs
  if hasDupB (sorted.map fun r => nameStr r.meta.name) then .error .ErrWareCorrupt
  else .ok (sha384 (String.intercalate ";" (sorted.map serializeRec)))

/-- The `unpackTar` pipeline (tar_unpack.go lines 151-258) over an already
decompressed and decoded entry stream: run the entry loop from the given
initial filesystem, conjure a root record if the stream lacked one, repair
directory mtimes in post-order, re-apply the root metadata, and hash the
bucket into a Ware ID. -/
def unpackTar (env : Env) (f : FilesetFilters) (bump : Mtime) (tok : Nat → Bool)
    (fs0 : FS) (entries : List TarEntry) : Except (ErrC × FS) (WareID × FS) :=
  match unpackTarLoop env f bump tok 0 ⟨fs0, []⟩ entries with
  | .error x => .error x
  | .ok st =>
    let recs := ensureRoot env f st.bucket
    let fs2 := dirMtimeFixup env f bump st.fsst recs
    match hashBucket recs with
    | .error c => .error (c, fs2)
    | .ok h => .ok (⟨"tar", base58Encode h⟩, fs2)

/-- Observable outcome of an unpack: the error category or the Ware ID,
with the filesystem state (which carries run-dependent mtimes) erased. -/
def obsOf : Except (ErrC × FS) (WareID × FS) → Except ErrC WareID
  | .error (c, _) => .error c
  | .ok (w, _) => .ok w

/-- Simulation relation between two pipeline states produced by runs under
different environments and clocks: identical buckets, and filesystems with
identical key sets (node metadata may differ in run-dependent mtimes, but
existence — all the pipeline ever reads back — coincides). -/
def StKeysEq (s1 s2 : PState) : Prop :=
  s1.bucket = s2.bucket ∧ FS.keys s1.fsst = FS.keys s2.fsst

/-- Simulation relation between two step results: equal error categories, or
related success states. -/
def ResRel : Except (ErrC × FS) PState → Except (ErrC × FS) PState → Prop
  | .error (c1, _), .error (c2, _) => c1 = c2
  | .ok s1, .ok s2 => StKeysEq s1 s2
  | _, _ => False

/-- Filters that erase identity and timestamps: uid and gid forced to fixed
integers and mtime forced to a fixed date, so that no field depends on the
running process or the clock. -/
def erasesIdFilters (f : FilesetFilters) : Bool :=
  (match f.uid with
    | .exact _ => true
    | _ => false)
  && (match f.gid with
    | .exact _ => true
    | _ => false)
  && (match f.mtime with
    | .exact _ => true
    | _ => false)

/-- The hash comparison at the end of `unpack` (tar_unpack.go lines
136-148): the recomputed ware id is returned either way; when it differs
from the declared one an `ErrWareHashMismatch` with both values in its
details accompanies it. -/
def checkHashMatch (wareID gotWare : WareID) : WareID × Option ErrDetails :=
  if gotWare ≠ wareID then
    (gotWare, some
      { category := .ErrWareHashMismatch
        message := "hash mismatch: expected \"" ++ wareID.str ++ "\", got \"" ++ gotWare.str ++ "\""
        details := [("expected", wareID.str), ("actual", gotWare.str)] })
  else (gotWare, none)

/-- Outcome of one warehouse in the selection loop of `unpack`
(tar_unpack.go lines 86-124): controller construction may fail soft
(unavailable) or hard; opening the reader may fail soft (ware not found,
leaving a nil reader) or hard, or succeed with a reader. -/
inductive WhOutcome where
  | ctrlUnavailable
  | ctrlFail (c : ErrC)
  | readNotFound
  | readFail (c : ErrC)
  | readOk (rid : Nat)
deriving DecidableEq, Repr

/-- The warehouse-selection loop of `unpack`, exactly as written: soft
failures `continue`, hard failures return, a successful open assigns the
reader variable — and the loop keeps iterating, so a later warehouse
reassigns it (ware-not-found assigns nil over a previous success).  After
the loop, a nil reader yields `ErrWarehouseUnavailable`. -/
def pickWarehouse : List WhOutcome → Option Nat → Except ErrC Nat
  | [], r =>
    match r with
    | none => .error .ErrWarehouseUnavailable
    | some rid => .ok rid
  | o :: rest, r =>
    match o with
    | .ctrlUnavailable => pickWarehouse rest r
    | .ctrlFail c => .error c
    | .readNotFound => pickWarehouse rest none
    | .readFail c => .error c
    | .readOk rid => pickWarehouse rest (some rid)

/-- Path-prefix test: `nameLeads base p` holds when `p` lies at or below
`base` in the tree. -/
def nameLeads : Name → Name → Bool
  | [], _ => true
  | _ :: _, [] => false
  | a :: as, b :: bs => decide (a = b) && nameLeads as bs

/-- Mirrors `os.RemoveAll(dstPath)`: delete the whole subtree at a path. -/
def FS.removeAll (fs : FS) (dst : Name) : FS :=
  fs.filter fun kv => !(nameLeads dst kv.1)

/-- The nodes of the subtree rooted at `src`, as visited by the copy
treewalk. -/
def subtreeNodes (fs : FS) (src : Name) : List (Name × Metadata) :=
  fs.filter fun kv => nameLeads src kv.1

/-- Translate a path inside the source subtree to the destination. -/
def remapName (src dst p : Name) : Name := dst ++ p.drop src.length

/-- The preVisit copy pass of `CopyPlacer`: place every visited node at its
translated destination path. -/
def copyNodes (w : FS) (nodes : List (Name × Metadata)) (src dst : Name)
    (bump : Mtime) : FS :=
  nodes.foldl (fun acc kv => acc.placeFile { kv.2 with name := remapName src dst kv.1 } bump) w

/-- The postVisit pass of `CopyPlacer`: re-apply source directory mtimes on
the destination side, children before parents. -/
def copyDirRepair (w : FS) (nodes : List (Name × Metadata)) (src dst : Name) : FS :=
  nodes.reverse.foldl
    (fun acc kv =>
      if kv.2.ftype = .Type_Dir then acc.setMtimeIfPresent (remapName src dst kv.1) kv.2.mtime
      else acc)
    w

/-- The deferred `fsOp.RepairMtime` of `CopyPlacer`: restore the destination
parent directory's mtime captured before the placement disrupted it. -/
def repairParent (w : FS) (dst : Name) (pm : Option Metadata) : FS :=
  match pm with
  | none => w
  | some m => w.setMtimeIfPresent dst.dropLast m.mtime

/-- Cleanup handle returned by the placer: remove the placed file, or
recursively delete the placed tree. -/
inductive Cleanup where
  | removeDst
  | removeAllDst
deriving DecidableEq, Repr

/-- Result of a `CopyPlacer` call: the cleanup handle (none when an error is
returned before placement completes), the error category, and the resulting
filesystem state. -/
structure PlaceOutcome where
  cleanup : Option Cleanup
  err : Option ErrC
  world : FS
deriving DecidableEq, Repr

/-- The body of `CopyPlacer` after the source-type precondition passed
(copyPlacer.go lines 36-96): the destination parent's mtime has been
captured for deferred repair and the destination subtree deleted; then a
plain file is scanned and placed, or a directory subtree is tree-walked and
copied.  `fuel` models a failing copy walk: `some k` fails after copying
`k` nodes, `none` completes. -/
def copyPlacerGo (pm : Option Metadata) (w1 : FS) (src dst : Name)
    (sm : Metadata) (fuel : Option Nat) (bump : Mtime) : PlaceOutcome :=
  if sm.ftype = .Type_File then
    match w1.lstat src with
    | none => ⟨none, some .ErrLocalCacheProblem, repairParent w1 dst pm⟩
    | some sm1 =>
      ⟨some .removeDst, none,
        repairParent (w1.placeFile { sm1 with name := dst } bump) dst pm⟩
  else
    let nodes := subtreeNodes w1 src
    match fuel with
    | some k =>
      ⟨none, some .ErrFsRaw,
        repairParent (copyNodes w1 (nodes.take k) src dst bump) dst pm⟩
    | none =>
      ⟨some .removeAllDst, none,
        repairParent (copyDirRepair (copyNodes w1 nodes src dst bump) nodes src dst) dst pm⟩

/-- `CopyPlacer` (copyPlacer.go): stat the source — any stat failure yields
`ErrLocalCacheProblem`; a source that is neither plain file nor directory
yields `ErrAssemblyInvalid`, before anything is touched.  Otherwise the
destination parent mtime is captured, the destination subtree removed, and
the copy proceeds. -/
def copyPlacer (w : FS) (src dst : Name) (fuel : Option Nat) (bump : Mtime) :
    PlaceOutcome :=
  match w.lstat src with
  | none => ⟨none, some .ErrLocalCacheProblem, w⟩
  | some sm =>
    if sm.ftype = .Type_File ∨ sm.ftype = .Type_Dir then
      copyPlacerGo (w.lstat dst.dropLast) (w.removeAll dst) src dst sm fuel bump
    else ⟨none, some .ErrAssemblyInvalid, w⟩

/-- Output format selected by `--format`; `unset` is the zero value the
output controller starts with (treated as dumb). -/
inductive OutFormat where
  | unset
  | dumb
  | json
deriving DecidableEq, Repr

/-- What one rio invocation wrote to its two output streams. -/
structure CliOutput where
  stdout : String
  stderr : String
deriving DecidableEq, Repr

/-- Printable category token of an error, for the JSON event encoding. -/
def errCTag : ErrC → String
  | .ErrUsage => "rio-usage-error"
  | .ErrWarehouseUnavailable => "rio-warehouse-unavailable"
  | .ErrWareNotFound => "rio-ware-not-found"
  | .ErrWareCorrupt => "rio-ware-corrupt"
  | .ErrWareHashMismatch => "rio-hash-mismatch"
  | .ErrCancelled => "rio-cancelled"
  | .ErrLocalCacheProblem => "rio-local-cache-problem"
  | .ErrAssemblyInvalid => "rio-assembly-invalid"
  | .ErrInoperablePath => "rio-inoperable-path"
  | .ErrFsRaw => "rio-fs-error"

/-- Serialization of the error slot of the result event. -/
def serializeErr : Option ErrDetails → String
  | none => "null"
  | some e =>
    "\x7b\"category\":\"" ++ errCTag e.category ++ "\",\"message\":\"" ++ e.message ++ "\"\x7d"

/-- The single JSON result event emitted per invocation (§6), mirroring the
refmt marshal of `rio.Event` in `outputController.EmitResult`. -/
def serializeEvent (w : WareID) (err : Option ErrDetails) : String :=
  "\x7b\"prog\":null,\"result\":\x7b\"wareID\":\"" ++ w.str ++ "\",\"error\":"
    ++ serializeErr err ++ "\x7d\x7d"

/-- `outputController.EmitResult` (part_001 lines 264-288): dumb format
prints the Ware ID plus newline to stdout on success and the error message
plus newline to stderr on error; json format marshals exactly one result
event to stdout and additionally prints the error message to stderr. -/
def emitResult (fmt : OutFormat) (wareID : WareID) (err : Option ErrDetails) :
    CliOutput :=
  match fmt with
  | .unset | .dumb =>
    match err with
    | some e => ⟨"", e.message ++ "\n"⟩
    | none => ⟨wareID.str ++ "\n", ""⟩
  | .json =>
    let so := serializeEvent wareID err
    match err with
    | some e => ⟨so, e.message ++ "\n"⟩
    | none => ⟨so, ""⟩

/-- Modelled from the spec: `rio.ExitCodeForError` (§6 exit-code table). -/
def exitCodeFor : Option ErrC → Nat
  | none => 0
  | some c =>
    match c with
    | .ErrUsage => 2
    | .ErrWarehouseUnavailable => 3
    | .ErrWareNotFound => 4
    | .ErrWareCorrupt => 5
    | .ErrWareHashMismatch => 6
    | .ErrCancelled => 7
    | .ErrInoperablePath => 10
    | .ErrLocalCacheProblem => 11
    | _ => 1

/-- The `ErrUsage` error built by `Parse` when argument parsing fails
(part_001 lines 242-251). -/
def usageParseError (msg : String) : ErrDetails :=
  ⟨.ErrUsage, "error parsing args: " ++ msg, []⟩

/-- Modelled from the spec: the argument parser is an external collaborator
(§1); on a parse failure the `--format` flag has not been applied, so the
output controller's format is still the zero value (scenario S5 fixes the
observable behavior: usage errors leave stdout empty).  The failure path of
`Parse` then emits the usage error and exits with its code. -/
def cliParseFailure (msg : String) : CliOutput × Nat :=
  let e := usageParseError msg
  (emitResult .unset ⟨"", ""⟩ (some e), exitCodeFor (some e.category))

instance {ε α : Type} [DecidableEq ε] [DecidableEq α] : DecidableEq (Except ε α)
  | .error a, .error b =>
    if h : a = b then .isTrue (by rw [h]) else .isFalse (by intro hc; cases hc; exact h rfl)
  | .error _, .ok _ => .isFalse (by intro hc; cases hc)
  | .ok _, .error _ => .isFalse (by intro hc; cases hc)
  | .ok a, .ok b =>
    if h : a = b then .isTrue (by rw [h]) else .isFalse (by intro hc; cases hc; exact h rfl)

theorem keys_nil : FS.keys [] = [] := rfl

theorem keys_cons (a : Name) (x : Metadata) (rest : FS) :
    FS.keys ((a, x) :: rest) = a :: FS.keys rest := rfl

theorem lstat_nil (k : Name) : FS.lstat [] k = none := rfl

theorem lstat_cons (a : Name) (x : Metadata) (rest : FS) (k : Name) :
    FS.lstat ((a, x) :: rest) k = if a = k then some x else FS.lstat rest k := rfl

theorem setNode_nil (n : Name) (m : Metadata) :
    FS.setNode [] n m = [(n, m)] := rfl

theorem setNode_cons (a : Name) (x : Metadata) (rest : FS) (n : Name) (m : Metadata) :
    FS.setNode ((a, x) :: rest) n m =
      if a = n then (n, m) :: rest else (a, x) :: FS.setNode rest n m := rfl

theorem setMtimeIfPresent_cons (a : Name) (x : Metadata) (rest : FS) (n : Name) (t : Mtime) :
    FS.setMtimeIfPresent ((a, x) :: rest) n t =
      if a = n then (a, { x with mtime := t }) :: rest
      else (a, x) :: FS.setMtimeIfPresent rest n t := rfl

theorem lstat_setNode (fs : FS) (n : Name) (m : Metadata) (k : Name) :
    (fs.setNode n m).lstat k = if k = n then some m else fs.lstat k := by
  induction fs with
  | nil =>
    rw [setNode_nil, lstat_cons]
    by_cases h : k = n
    · rw [if_pos h.symm, if_pos h]
    · rw [if_neg (fun hn => h hn.symm), if_neg h, lstat_nil]
  | cons kv rest ih =>
    obtain ⟨a, x⟩ := kv
    rw [setNode_cons]
    by_cases han : a = n
    · rw [if_pos han, lstat_cons, lstat_cons]
      by_cases hk : k = n
      · rw [if_pos hk.symm, if_pos hk]
      · have hak : ¬ a = k := fun hakh => hk (hakh.symm.trans han)
        rw [if_neg (fun hn => hk hn.symm), if_neg hk, if_neg hak]
    · rw [if_neg han, lstat_cons, lstat_cons, ih]
      by_cases hak : a = k
      · have hkn : ¬ k = n := fun hknh => han (hak.trans hknh)
        rw [if_pos hak, if_neg hkn, if_pos hak]
      · by_cases hkn : k = n
        · rw [if_neg hak, if_pos hkn, if_pos hkn]
        · rw [if_neg hak, if_neg hkn, if_neg hkn, if_neg hak]

theorem lstat_setMtimeIfPresent (fs : FS) (n : Name) (t : Mtime) (k : Name) :
    (fs.setMtimeIfPresent n t).lstat k =
      if k = n then (fs.lstat k).map fun x => { x with mtime := t }
      else fs.lstat k := by
  induction fs with
  | nil =>
    have hz : FS.setMtimeIfPresent [] n t = [] := rfl
    rw [hz, lstat_nil]
    by_cases h : k = n
    · rw [if_pos h]
      rfl
    · rw [if_neg h]
  | cons kv rest ih =>
    obtain ⟨a, x⟩ := kv
    rw [setMtimeIfPresent_cons]
    by_cases han : a = n
    · rw [if_pos han, lstat_cons, lstat_cons]
      by_cases hak : a = k
      · have hkn : k = n := hak.symm.trans han
        rw [if_pos hak, if_pos hkn, if_pos hak]
        rfl
      · have hkn : ¬ k = n := fun hknh => hak (han.trans hknh.symm)
        rw [if_neg hak, if_neg hkn, if_neg hak]
    · rw [if_neg han, lstat_cons, lstat_cons, ih]
      by_cases hak : a = k
      · have hkn : ¬ k = n := fun hknh => han (hak.trans hknh)
        rw [if_pos hak, if_neg hkn, if_pos hak]
      · by_cases hkn : k = n
        · rw [if_neg hak, if_pos hkn, if_pos hkn, if_neg hak]
        · rw [if_neg hak, if_neg hkn, if_neg hkn, if_neg hak]

theorem keys_setMtimeIfPresent (fs : FS) (n : Name) (t : Mtime) :
    (fs.setMtimeIfPresent n t).keys = fs.keys := by
  induction fs with
  | nil => rfl
  | cons kv rest ih =>
    obtain ⟨a, x⟩ := kv
    simp only [FS.setMtimeIfPresent]
    split_ifs with h
    · rfl
    · rw [keys_cons, keys_cons, ih]

theorem keys_setNode (fs : FS) (n : Name) (m : Metadata) :
    (fs.setNode n m).keys = if n ∈ fs.keys then fs.keys else fs.keys ++ [n] := by
  induction fs with
  | nil =>
    rw [setNode_nil, keys_cons, keys_nil, if_neg (List.not_mem_nil n)]
    rfl
  | cons kv rest ih =>
    obtain ⟨a, x⟩ := kv
    rw [setNode_cons]
    by_cases h : a = n
    · subst h
      rw [if_pos rfl, keys_cons, keys_cons, if_pos (List.mem_cons_self a _)]
    · rw [if_neg h, keys_cons, keys_cons, ih]
      by_cases hmem : n ∈ FS.keys rest
      · rw [if_pos hmem, if_pos (List.mem_cons_of_mem a hmem)]
      · have hnc : n ∉ a :: FS.keys rest := by
          intro hc
          rcases List.mem_cons.mp hc with h1 | h1
          · exact h h1.symm
          · exact hmem h1
        rw [if_neg hmem, if_neg hnc]
        rfl

theorem keys_placeFile (fs : FS) (m : Metadata) (bump : Mtime) :
    (fs.placeFile m bump).keys =
      if m.name ∈ fs.keys then fs.keys else fs.keys ++ [m.name] := by
  show (if m.name = [] then fs.setNode m.name m
        else (fs.setNode m.name m).setMtimeIfPresent m.name.dropLast bump).keys = _
  by_cases h : m.name = []
  · rw [if_pos h, keys_setNode]
  · rw [if_neg h, keys_setMtimeIfPresent, keys_setNode]

theorem lstat_eq_none_iff (fs : FS) (n : Name) :
    fs.lstat n = none ↔ n ∉ fs.keys := by
  induction fs with
  | nil => simp [lstat_nil, keys_nil]
  | cons kv rest ih =>
    obtain ⟨a, x⟩ := kv
    rw [lstat_cons, keys_cons]
    by_cases h : a = n
    · subst h
      simp
    · have h2 : ¬ n = a := fun hn => h hn.symm
      rw [if_neg h]
      simp [h2, ih]

/-- C2: hash verification at the end of `unpack` — on mismatch between the
declared and recomputed Ware IDs an `ErrWareHashMismatch` error carries
`expected` (declared) and `actual` (computed) in its details; an error-free
result's Ware ID equals the declared one. -/
theorem unpack_hash_verification (declared got : WareID) :
    ((checkHashMatch declared got).2 = none → (checkHashMatch declared got).1 = declared) ∧
    (got ≠ declared →
      ∃ e, (checkHashMatch declared got).2 = some e ∧
        e.category = .ErrWareHashMismatch ∧
        e.details.lookup "expected" = some declared.str ∧
        e.details.lookup "actual" = some got.str) := by
  by_cases h : got = declared
  · subst h
    refine ⟨fun _ => by simp [checkHashMatch], fun hc => absurd rfl hc⟩
  · refine ⟨fun hnone => ?_, fun _ => ?_⟩
    · exact absurd hnone (by simp [checkHashMatch, h])
    · exact ⟨⟨.ErrWareHashMismatch,
        "hash mismatch: expected \"" ++ declared.str ++ "\", got \"" ++ got.str ++ "\"",
        [("expected", declared.str), ("actual", got.str)]⟩,
        by simp [checkHashMatch, h], rfl, rfl, rfl⟩

/-- Witness for C2 at concrete Ware IDs: a matching pair returns the
declared ID with no error, and a mismatched pair carries both IDs in the
error details. -/
theorem unpack_hash_verification_witness :
    (checkHashMatch ⟨"tar", "aa"⟩ ⟨"tar", "aa"⟩).1 = ⟨"tar", "aa"⟩ ∧
    (∃ e, (checkHashMatch ⟨"tar", "aa"⟩ ⟨"tar", "bb"⟩).2 = some e ∧
      e.category = .ErrWareHashMismatch ∧
      e.details.lookup "expected" = some (WareID.str ⟨"tar", "aa"⟩) ∧
      e.details.lookup "actual" = some (WareID.str ⟨"tar", "bb"⟩)) :=
  ⟨(unpack_hash_verification ⟨"tar", "aa"⟩ ⟨"tar", "aa"⟩).1 rfl,
   (unpack_hash_verification ⟨"tar", "aa"⟩ ⟨"tar", "bb"⟩).2 (by decide)⟩

/-- C3: the warehouse-selection loop as implemented does not stop at the
first success.  A ware-not-found after a successful open overwrites the
reader with nil and the whole unpack fails with `ErrWarehouseUnavailable`;
a second success overwrites the first reader.  (The claim's concrete
example `[unavailable, not-found, ok]` does work, because the success is
last.)  This evaluates the code at the failing inputs. -/
theorem pickWarehouse_not_first_success :
    pickWarehouse [.readOk 1, .readNotFound] none = .error .ErrWarehouseUnavailable ∧
    pickWarehouse [.readOk 1] none = .ok 1 ∧
    pickWarehouse [.readOk 1, .readOk 2] none = .ok 2 ∧
    pickWarehouse [.ctrlUnavailable, .readNotFound, .readOk 3] none = .ok 3 ∧
    pickWarehouse [] none = .error .ErrWarehouseUnavailable :=
  ⟨rfl, rfl, rfl, rfl, rfl⟩

/-- C4: a tar entry whose normalized name begins with `..` aborts the entry
loop with `ErrWareCorrupt`, and the filesystem returned is exactly the
state at that entry's boundary — the offending entry and everything after
it are never placed. -/
theorem tar_breakout_rejected (env : Env) (f : FilesetFilters) (bump : Mtime)
    (tok : Nat → Bool) (i : Nat) (st : PState) (e : TarEntry) (rest : List TarEntry)
    (hname : strHasPre ".." (nameStr e.meta.name) = true)
    (htok : tok i = false) :
    unpackTarLoop env f bump tok i st (e :: rest) = .error (.ErrWareCorrupt, st.fsst) := by
  simp [unpackTarLoop, htok, processEntry, hname]

/-- Witness for C4: a crafted `../etc/passwd` entry is rejected with
`ErrWareCorrupt` and the (empty) target filesystem is untouched. -/
theorem tar_breakout_rejected_witness :
    strHasPre ".." (nameStr ["..", "etc", "passwd"]) = true ∧
    unpackTarLoop ⟨0, 0⟩ ⟨.keep, .keep, .keep, .keep⟩ ⟨0, 0⟩ noCancel 0 ⟨[], []⟩
        [⟨⟨["..", "etc", "passwd"], .Type_File, 420, 0, 0, ⟨0, 0⟩, ""⟩, "x"⟩] =
      .error (.ErrWareCorrupt, []) :=
  ⟨by decide,
   tar_breakout_rejected _ _ _ _ _ _ _ _ (by decide) rfl⟩

/-- C9: when the cancellation token is set at an entry boundary with
entries still pending, the loop returns `ErrCancelled` and the filesystem
returned is exactly the state at that boundary — no further tar entry is
placed after cancellation. -/
theorem unpack_cancelled_at_boundary (env : Env) (f : FilesetFilters) (bump : Mtime)
    (tok : Nat → Bool) (i : Nat) (st : PState) (e : TarEntry) (rest : List TarEntry)
    (h : tok i = true) :
    unpackTarLoop env f bump tok i st (e :: rest) = .error (.ErrCancelled, st.fsst) := by
  simp [unpackTarLoop, h]

/-- Witness for C9: an already-cancelled token stops the loop at the first
boundary with `ErrCancelled`, leaving the filesystem untouched. -/
theorem unpack_cancelled_at_boundary_witness :
    (fun _ : Nat => true) 0 = true ∧
    unpackTarLoop ⟨0, 0⟩ ⟨.keep, .keep, .keep, .keep⟩ ⟨0, 0⟩ (fun _ => true) 0 ⟨[], []⟩
        [⟨⟨["a"], .Type_File, 420, 0, 0, ⟨0, 0⟩, ""⟩, "x"⟩] =
      .error (.ErrCancelled, []) :=
  ⟨rfl, unpack_cancelled_at_boundary _ _ _ _ _ _ _ _ rfl⟩

/-- C8: the CLI output contract of `outputController.EmitResult` and the
parse-failure path of `Parse` — dumb format prints exactly the Ware ID plus
newline to stdout on success (stderr empty) and the error message plus
newline to stderr on error (stdout empty); json format emits exactly the
one serialized result event to stdout, with the error message additionally
on stderr; an argument-parse failure yields an `ErrUsage` error, exit code
2, and empty stdout. -/
theorem cli_output_contract :
    (∀ w : WareID, emitResult .dumb w none = ⟨w.str ++ "\n", ""⟩) ∧
    (∀ (w : WareID) (e : ErrDetails),
      emitResult .dumb w (some e) = ⟨"", e.message ++ "\n"⟩) ∧
    (∀ w : WareID, emitResult .json w none = ⟨serializeEvent w none, ""⟩) ∧
    (∀ (w : WareID) (e : ErrDetails),
      emitResult .json w (some e) = ⟨serializeEvent w (some e), e.message ++ "\n"⟩) ∧
    (∀ msg : String,
      (usageParseError msg).category = .ErrUsage ∧
      (cliParseFailure msg).2 = 2 ∧
      (cliParseFailure msg).1.stdout = "") :=
  ⟨fun _ => rfl, fun _ _ => rfl, fun _ => rfl, fun _ _ => rfl,
   fun _ => ⟨rfl, rfl, rfl⟩⟩

theorem lstat_filter (fs : FS) (P : Name → Bool) (n : Name) (h : P n = true) :
    FS.lstat (fs.filter fun kv => P kv.1) n = fs.lstat n := by
  induction fs with
  | nil => rfl
  | cons kv rest ih =>
    obtain ⟨a, x⟩ := kv
    rw [List.filter_cons]
    by_cases ha : P a = true
    · simp only [ha, if_pos]
      rw [lstat_cons, lstat_cons]
      by_cases han : a = n
      · rw [if_pos han, if_pos han]
      · rw [if_neg han, if_neg han, ih]
    · have han : ¬ a = n := fun hc => ha (hc ▸ h)
      simp only [Bool.not_eq_true] at ha
      simp only [ha, Bool.false_eq_true, if_false]
      rw [ih, lstat_cons, if_neg han]

theorem nameLeads_length (a b : Name) (h : nameLeads a b = true) :
    a.length ≤ b.length := by
  induction a generalizing b with
  | nil => simp
  | cons c cs ih =>
    cases b with
    | nil => simp [nameLeads] at h
    | cons d ds =>
      simp only [nameLeads, Bool.and_eq_true, decide_eq_true_eq] at h
      simpa using ih ds h.2

theorem nameLeads_dropLast (dst : Name) (h : dst ≠ []) :
    nameLeads dst dst.dropLast = false := by
  cases hb : nameLeads dst dst.dropLast with
  | false => rfl
  | true =>
    exfalso
    have h1 := nameLeads_length _ _ hb
    rw [List.length_dropLast] at h1
    have h2 : 0 < dst.length := List.length_pos.mpr h
    omega

theorem lstat_eq_of_outside_agree (w1 w2 : FS) (dst n : Name)
    (hagree : w1.filter (fun kv => !(nameLeads dst kv.1)) =
      w2.filter (fun kv => !(nameLeads dst kv.1)))
    (hn : nameLeads dst n = false) :
    w1.lstat n = w2.lstat n := by
  have hp : (!(nameLeads dst n)) = true := by rw [hn]; rfl
  have h1 := lstat_filter w1 (fun k => !(nameLeads dst k)) n hp
  have h2 := lstat_filter w2 (fun k => !(nameLeads dst k)) n hp
  rw [← h1, ← h2, hagree]

/-- C7 counterexample: with the source path missing, `CopyPlacer` returns an
`ErrLocalCacheProblem` — not the `ErrAssemblyInvalid` the claim asserts
(the LStat failure at copyPlacer.go line 27 is wrapped as
`ErrLocalCacheProblem`; only the wrong-type case at line 33 is
`ErrAssemblyInvalid`). -/
theorem copyPlacer_missing_source_counterexample :
    (copyPlacer [] ["cache"] ["dst"] none ⟨0, 0⟩).err = some .ErrLocalCacheProblem ∧
    ¬ (copyPlacer [] ["cache"] ["dst"] none ⟨0, 0⟩).err = some .ErrAssemblyInvalid :=
  ⟨rfl, by decide⟩

/-- C7 (amended): a missing source makes `CopyPlacer` return
`ErrLocalCacheProblem` with a nil cleanup handle and an untouched
filesystem; a source that exists but is neither a plain file nor a
directory makes it return `ErrAssemblyInvalid`, again with nil cleanup and
nothing copied. -/
theorem copyPlacer_precondition_errors (w : FS) (src dst : Name)
    (fuel : Option Nat) (bump : Mtime) :
    (w.lstat src = none →
      copyPlacer w src dst fuel bump = ⟨none, some .ErrLocalCacheProblem, w⟩) ∧
    (∀ sm, w.lstat src = some sm →
      sm.ftype ≠ .Type_File → sm.ftype ≠ .Type_Dir →
      copyPlacer w src dst fuel bump = ⟨none, some .ErrAssemblyInvalid, w⟩) := by
  constructor
  · intro h
    simp [copyPlacer, h]
  · intro sm h hf hd
    simp [copyPlacer, h, hf, hd]

/-- Witness for the amended C7 at concrete inputs: an empty cache world
(missing source) and a symlink source. -/
theorem copyPlacer_precondition_errors_witness :
    copyPlacer [] ["s"] ["d"] none ⟨0, 0⟩ = ⟨none, some .ErrLocalCacheProblem, []⟩ ∧
    copyPlacer [(["s"], ⟨["s"], .Type_Symlink, 511, 0, 0, ⟨0, 0⟩, "t"⟩)] ["s"] ["d"] none ⟨0, 0⟩ =
      ⟨none, some .ErrAssemblyInvalid,
        [(["s"], ⟨["s"], .Type_Symlink, 511, 0, 0, ⟨0, 0⟩, "t"⟩)]⟩ :=
  ⟨(copyPlacer_precondition_errors [] ["s"] ["d"] none ⟨0, 0⟩).1 rfl,
   (copyPlacer_precondition_errors _ ["s"] ["d"] none ⟨0, 0⟩).2
     ⟨["s"], .Type_Symlink, 511, 0, 0, ⟨0, 0⟩, "t"⟩ rfl (by decide) (by decide)⟩

/-- C10: for a valid (file or directory) source outside the destination
subtree, the entire outcome of `CopyPlacer` — cleanup handle, error, and
resulting filesystem, whether the copy walk completes (`fuel = none`) or
fails partway (`fuel = some k`) — is independent of whatever was previously
at the destination: two worlds that agree outside the destination subtree
produce identical outcomes, because `os.RemoveAll(dst)` deletes the old
destination tree before any copying begins (mount-style masking).  Prior
content at the target therefore never survives the placement. -/
theorem copyPlacer_erases_prior_target (w1 w2 : FS) (src dst : Name)
    (fuel : Option Nat) (bump : Mtime)
    (hsrc : nameLeads dst src = false)
    (hagree : w1.filter (fun kv => !(nameLeads dst kv.1)) =
      w2.filter (fun kv => !(nameLeads dst kv.1)))
    (hvalid : ∃ sm, w1.lstat src = some sm ∧
      (sm.ftype = .Type_File ∨ sm.ftype = .Type_Dir)) :
    copyPlacer w1 src dst fuel bump = copyPlacer w2 src dst fuel bump := by
  obtain ⟨sm, hsm, hty⟩ := hvalid
  have hdst : dst ≠ [] := by
    intro h
    subst h
    simp [nameLeads] at hsrc
  have hs2 : w2.lstat src = some sm := by
    rw [← lstat_eq_of_outside_agree w1 w2 dst src hagree hsrc]
    exact hsm
  have hpm : w1.lstat dst.dropLast = w2.lstat dst.dropLast :=
    lstat_eq_of_outside_agree w1 w2 dst dst.dropLast hagree (nameLeads_dropLast dst hdst)
  have hrm : w1.removeAll dst = w2.removeAll dst := hagree
  simp only [copyPlacer, hsm, hs2, if_pos hty]
  rw [hpm, hrm]

/-- Witness for C10: a directory source, with the first world holding stale
content under the destination and the second world holding none; the
outcomes coincide. -/
theorem copyPlacer_erases_prior_target_witness :
    nameLeads ["d"] ["s"] = false ∧
    copyPlacer
        [((["s"] : Name), (⟨["s"], .Type_Dir, 493, 0, 0, ⟨1, 1⟩, ""⟩ : Metadata)),
         ((["d", "old"] : Name), (⟨["d", "old"], .Type_File, 420, 0, 0, ⟨2, 2⟩, ""⟩ : Metadata))]
        ["s"] ["d"] none ⟨9, 9⟩ =
      copyPlacer
        [((["s"] : Name), (⟨["s"], .Type_Dir, 493, 0, 0, ⟨1, 1⟩, ""⟩ : Metadata))]
        ["s"] ["d"] none ⟨9, 9⟩ :=
  ⟨rfl,
   copyPlacer_erases_prior_target _ _ ["s"] ["d"] none ⟨9, 9⟩ rfl (by decide)
     ⟨⟨["s"], .Type_Dir, 493, 0, 0, ⟨1, 1⟩, ""⟩, rfl, Or.inr rfl⟩⟩

theorem mem_takeChain (n : Name) (x : Nat) (q : Name) (h : q ∈ takeChain n x) :
    ∃ k, 1 ≤ k ∧ k ≤ x ∧ q = n.take k := by
  induction x with
  | zero => simp [takeChain] at h
  | succ y ih =>
    rw [takeChain] at h
    rcases List.mem_cons.mp h with h1 | h1
    · exact ⟨y + 1, by omega, le_refl _, h1⟩
    · obtain ⟨k, h2, h3, h4⟩ := ih h1
      exact ⟨k, h2, by omega, h4⟩

theorem chainDesc_takeChain (n : Name) (x : Nat) (hx : x ≤ n.length) :
    ChainDesc (takeChain n x) := by
  induction x with
  | zero => trivial
  | succ y ih =>
    refine ⟨?_, ?_, ih (by omega)⟩
    · intro hc
      have hl := congrArg List.length hc
      rw [List.length_take] at hl
      simp only [List.length_nil] at hl
      omega
    · intro q hq
      obtain ⟨k, h1, h2, h3⟩ := mem_takeChain n y q hq
      subst h3
      rw [List.length_take, List.length_take]
      omega

theorem conjureOne_bucket_mem (env : Env) (f : FilesetFilters) (bump : Mtime)
    (st : PState) (p : Name) (r : Record) (h : r ∈ st.bucket) :
    r ∈ (conjureOne env f bump st p).bucket := by
  unfold conjureOne
  cases hst : st.fsst.lstat p with
  | some m => exact h
  | none => simp [List.mem_append, h]

theorem conjureFold_bucket_mem (env : Env) (f : FilesetFilters) (bump : Mtime)
    (ps : List Name) (st : PState) (r : Record) (h : r ∈ st.bucket) :
    r ∈ (ps.foldl (conjureOne env f bump) st).bucket := by
  induction ps generalizing st with
  | nil => exact h
  | cons p pt ih =>
    simp only [List.foldl_cons]
    exact ih _ (conjureOne_bucket_mem env f bump st p r h)

theorem conjureOne_lstat_untouched (env : Env) (f : FilesetFilters) (bump : Mtime)
    (st : PState) (p k : Name) (h1 : p ≠ k) (h2 : p.dropLast ≠ k) :
    (conjureOne env f bump st p).fsst.lstat k = st.fsst.lstat k := by
  unfold conjureOne
  cases hst : st.fsst.lstat p with
  | some m => rfl
  | none =>
    have hk1 : ¬ k = p := fun hc => h1 hc.symm
    have hk2 : ¬ k = p.dropLast := fun hc => h2 hc.symm
    simp only [FS.placeFile]
    by_cases hp : p = []
    · subst hp
      simp [lstat_setNode, hk1]
    · simp [hp, lstat_setNode, lstat_setMtimeIfPresent, hk1, hk2]

theorem conjureOne_lstat_noneKept (env : Env) (f : FilesetFilters) (bump : Mtime)
    (st : PState) (p k : Name) (h1 : p ≠ k) (h : st.fsst.lstat k = none) :
    (conjureOne env f bump st p).fsst.lstat k = none := by
  unfold conjureOne
  cases hst : st.fsst.lstat p with
  | some m => exact h
  | none =>
    have hk1 : ¬ k = p := fun hc => h1 hc.symm
    simp only [FS.placeFile]
    by_cases hp : p = []
    · subst hp
      simp [lstat_setNode, hk1, h]
    · simp [hp, lstat_setNode, lstat_setMtimeIfPresent, hk1, h]

theorem conjureFold_lstat_untouched (env : Env) (f : FilesetFilters) (bump : Mtime)
    (ps : List Name) (st : PState) (k : Name)
    (hps : ∀ q ∈ ps, q ≠ k ∧ q.dropLast ≠ k) :
    ((ps.foldl (conjureOne env f bump) st).fsst).lstat k = st.fsst.lstat k := by
  induction ps generalizing st with
  | nil => rfl
  | cons p pt ih =>
    simp only [List.foldl_cons]
    rw [ih _ fun q hq => hps q (List.mem_cons_of_mem p hq)]
    exact conjureOne_lstat_untouched env f bump st p k
      (hps p (List.mem_cons_self p pt)).1 (hps p (List.mem_cons_self p pt)).2

theorem conjureFold_conjures (env : Env) (f : FilesetFilters) (bump : Mtime)
    (ps : List Name) (st : PState) (p : Name)
    (hdesc : ChainDesc ps) (hp : p ∈ ps) (hmiss : st.fsst.lstat p = none) :
    FS.lstat ((ps.foldl (conjureOne env f bump) st).fsst) p
      = some { defaultDirMetadata env f with name := p }
    ∧ (⟨{ defaultDirMetadata env f with name := p }, none⟩ : Record)
        ∈ (ps.foldl (conjureOne env f bump) st).bucket := by
  induction ps generalizing st with
  | nil => exact absurd hp (List.not_mem_nil p)
  | cons q qt ih =>
    obtain ⟨hq0, hlen, hdesc2⟩ := hdesc
    simp only [List.foldl_cons]
    rcases List.mem_cons.mp hp with rfl | hpt
    · have hfire : conjureOne env f bump st p =
          { fsst := st.fsst.placeFile { defaultDirMetadata env f with name := p } bump
            bucket := st.bucket ++ [⟨{ defaultDirMetadata env f with name := p }, none⟩] } := by
        unfold conjureOne
        rw [hmiss]
      rw [hfire]
      have huntouched : ∀ q2 ∈ qt, q2 ≠ p ∧ q2.dropLast ≠ p := by
        intro q2 hq2
        have hl := hlen q2 hq2
        constructor
        · intro hc
          rw [hc] at hl
          omega
        · intro hc
          have hll := congrArg List.length hc
          rw [List.length_dropLast] at hll
          omega
      constructor
      · rw [conjureFold_lstat_untouched env f bump qt _ p huntouched]
        have hpd : ¬ p = p.dropLast := by
          intro hc
          have hll := congrArg List.length hc
          rw [List.length_dropLast] at hll
          have h2 : 0 < p.length := List.length_pos.mpr hq0
          omega
        show FS.lstat (FS.placeFile st.fsst _ bump) p = _
        simp only [FS.placeFile]
        simp [hq0, lstat_setNode, lstat_setMtimeIfPresent, hpd]
      · exact conjureFold_bucket_mem env f bump qt _ _
          (List.mem_append.mpr (Or.inr (List.mem_singleton.mpr rfl)))
    · have hqp : q ≠ p := by
        intro hc
        have hll := hlen p hpt
        rw [hc] at hll
        omega
      exact ih _ hdesc2 hpt (conjureOne_lstat_noneKept env f bump st q p hqp hmiss)

/-- C5: for every proper ancestor of a tar entry's name that is absent from
the filesystem, the conjuring loop of `unpackTar` creates that directory
with the defaulted metadata (type dir, mode 0755, uid/gid from the filter,
mtime from the filter or the default — see `defaultDirMetadata`) and adds
the corresponding record to the bucket. -/
theorem unpack_conjures_missing_parents (env : Env) (f : FilesetFilters) (bump : Mtime)
    (n : Name) (st : PState) (p : Name)
    (hp : p ∈ properAncestors n) (hmiss : st.fsst.lstat p = none) :
    (defaultDirMetadata env f).perms = 0o755 ∧
    (defaultDirMetadata env f).ftype = .Type_Dir ∧
    FS.lstat ((conjureParents env f bump n st).fsst) p
      = some { defaultDirMetadata env f with name := p } ∧
    (⟨{ defaultDirMetadata env f with name := p }, none⟩ : Record)
      ∈ (conjureParents env f bump n st).bucket := by
  have hdesc : ChainDesc (properAncestors n) :=
    chainDesc_takeChain n (n.length - 1) (by omega)
  have h := conjureFold_conjures env f bump (properAncestors n) st p hdesc hp hmiss
  exact ⟨rfl, rfl, h.1, h.2⟩

/-- Witness for C5: unpacking an entry named `a/b` into an empty tree
conjures the missing parent `a` with default metadata and records it. -/
theorem unpack_conjures_missing_parents_witness :
    (["a"] : Name) ∈ properAncestors ["a", "b"] ∧
    FS.lstat ([] : FS) ["a"] = none ∧
    FS.lstat ((conjureParents ⟨7, 7⟩ ⟨.keep, .keep, .keep, .keep⟩ ⟨9, 9⟩ ["a", "b"] ⟨[], []⟩).fsst) ["a"]
      = some { defaultDirMetadata ⟨7, 7⟩ ⟨.keep, .keep, .keep, .keep⟩ with name := ["a"] } ∧
    (⟨{ defaultDirMetadata ⟨7, 7⟩ ⟨.keep, .keep, .keep, .keep⟩ with name := ["a"] }, none⟩ : Record)
      ∈ (conjureParents ⟨7, 7⟩ ⟨.keep, .keep, .keep, .keep⟩ ⟨9, 9⟩ ["a", "b"] ⟨[], []⟩).bucket :=
  ⟨by decide, rfl,
   (unpack_conjures_missing_parents ⟨7, 7⟩ ⟨.keep, .keep, .keep, .keep⟩ ⟨9, 9⟩
     ["a", "b"] ⟨[], []⟩ ["a"] (by decide) rfl).2.2.1,
   (unpack_conjures_missing_parents ⟨7, 7⟩ ⟨.keep, .keep, .keep, .keep⟩ ⟨9, 9⟩
     ["a", "b"] ⟨[], []⟩ ["a"] (by decide) rfl).2.2.2⟩

theorem filtersApply_envfree (f : FilesetFilters) (h : erasesIdFilters f = true)
    (e1 e2 : Env) (m : Metadata) :
    filtersApply e1 f m = filtersApply e2 f m := by
  obtain ⟨u, g, t, s⟩ := f
  cases u <;> cases g <;> cases t <;> simp_all [erasesIdFilters, filtersApply]

theorem defaultDirMetadata_envfree (f : FilesetFilters) (h : erasesIdFilters f = true)
    (e1 e2 : Env) :
    defaultDirMetadata e1 f = defaultDirMetadata e2 f := by
  obtain ⟨u, g, t, s⟩ := f
  cases u <;> cases g <;> cases t <;> simp_all [erasesIdFilters, defaultDirMetadata]

theorem conjureOne_keysEq (env1 env2 : Env) (f : FilesetFilters) (b1 b2 : Mtime)
    (h : erasesIdFilters f = true) (s1 s2 : PState) (p : Name)
    (hb : s1.bucket = s2.bucket) (hk : FS.keys s1.fsst = FS.keys s2.fsst) :
    (conjureOne env1 f b1 s1 p).bucket = (conjureOne env2 f b2 s2 p).bucket ∧
    FS.keys (conjureOne env1 f b1 s1 p).fsst = FS.keys (conjureOne env2 f b2 s2 p).fsst := by
  unfold conjureOne
  have hmem : s1.fsst.lstat p = none ↔ s2.fsst.lstat p = none := by
    rw [lstat_eq_none_iff, lstat_eq_none_iff, hk]
  cases h1 : s1.fsst.lstat p with
  | some m1 =>
    cases h2 : s2.fsst.lstat p with
    | some m2 => exact ⟨hb, hk⟩
    | none => exact absurd (hmem.mpr h2) (by simp [h1])
  | none =>
    cases h2 : s2.fsst.lstat p with
    | some m2 => exact absurd (hmem.mp h1) (by simp [h2])
    | none =>
      constructor
      · rw [hb, defaultDirMetadata_envfree f h env1 env2]
      · rw [keys_placeFile, keys_placeFile]
        simp only []
        rw [hk]

theorem conjureFold_keysEq (env1 env2 : Env) (f : FilesetFilters) (b1 b2 : Mtime)
    (h : erasesIdFilters f = true) (ps : List Name) (s1 s2 : PState)
    (hb : s1.bucket = s2.bucket) (hk : FS.keys s1.fsst = FS.keys s2.fsst) :
    (ps.foldl (conjureOne env1 f b1) s1).bucket
      = (ps.foldl (conjureOne env2 f b2) s2).bucket ∧
    FS.keys (ps.foldl (conjureOne env1 f b1) s1).fsst
      = FS.keys (ps.foldl (conjureOne env2 f b2) s2).fsst := by
  induction ps generalizing s1 s2 with
  | nil => exact ⟨hb, hk⟩
  | cons p pt ih =>
    simp only [List.foldl_cons]
    obtain ⟨hb1, hk1⟩ := conjureOne_keysEq env1 env2 f b1 b2 h s1 s2 p hb hk
    exact ih _ _ hb1 hk1

theorem processEntry_keysEq (env1 env2 : Env) (f : FilesetFilters) (b1 b2 : Mtime)
    (h : erasesIdFilters f = true) (s1 s2 : PState) (e : TarEntry)
    (hb : s1.bucket = s2.bucket) (hk : FS.keys s1.fsst = FS.keys s2.fsst) :
    ResRel (processEntry env1 f b1 s1 e) (processEntry env2 f b2 s2 e) := by
  simp only [processEntry]
  by_cases hbk : strHasPre ".." (nameStr e.meta.name) = true
  · simp [hbk, ResRel]
  · rw [if_neg hbk, if_neg hbk]
    have hf := filtersApply_envfree f h env1 env2 e.meta
    rw [← hf]
    simp only [conjureParents]
    obtain ⟨hb1, hk1⟩ := conjureFold_keysEq env1 env2 f b1 b2 h
      (properAncestors (filtersApply env1 f e.meta).name) s1 s2 hb hk
    cases hft : (filtersApply env1 f e.meta).ftype <;>
      exact show StKeysEq _ _ from
        ⟨by simp only []; rw [hb1],
         by simp only []; rw [keys_placeFile, keys_placeFile, hk1]⟩

theorem loop_keysEq (env1 env2 : Env) (f : FilesetFilters) (b1 b2 : Mtime)
    (tok : Nat → Bool) (h : erasesIdFilters f = true) (entries : List TarEntry) :
    ∀ (i : Nat) (s1 s2 : PState), StKeysEq s1 s2 →
      ResRel (unpackTarLoop env1 f b1 tok i s1 entries)
        (unpackTarLoop env2 f b2 tok i s2 entries) := by
  induction entries with
  | nil =>
    intro i s1 s2 hst
    exact hst
  | cons e rest ih =>
    intro i s1 s2 hst
    simp only [unpackTarLoop]
    by_cases ht : tok i
    · simp [ht, ResRel]
    · rw [if_neg ht, if_neg ht]
      have hpe := processEntry_keysEq env1 env2 f b1 b2 h s1 s2 e hst.1 hst.2
      cases hp1 : processEntry env1 f b1 s1 e with
      | error x1 =>
        cases hp2 : processEntry env2 f b2 s2 e with
        | error x2 =>
          obtain ⟨c1, w1⟩ := x1
          obtain ⟨c2, w2⟩ := x2
          rw [hp1, hp2] at hpe
          exact hpe
        | ok s2n =>
          rw [hp1, hp2] at hpe
          obtain ⟨c1, w1⟩ := x1
          exact absurd hpe (by simp [ResRel])
      | ok s1n =>
        cases hp2 : processEntry env2 f b2 s2 e with
        | error x2 =>
          rw [hp1, hp2] at hpe
          obtain ⟨c2, w2⟩ := x2
          exact absurd hpe (by simp [ResRel])
        | ok s2n =>
          rw [hp1, hp2] at hpe
          exact ih (i + 1) s1n s2n hpe

/-- C1: determinism of the unpack hashing pipeline — when the filters erase
uid, gid and mtime (fixed integers and a fixed date), the observable result
(the computed Ware ID, or the error category) of `unpackTar` on a given
decompressed entry stream is independent of the process identity (`env`,
substituted by `mine` filters) and of the ambient clock (`bump`, the value
smeared onto parent-directory mtimes by placement): two runs over the same
stream with the same filters produce bit-identical Ware IDs. -/
theorem unpack_wareID_deterministic (f : FilesetFilters)
    (hf : erasesIdFilters f = true) (env1 env2 : Env) (b1 b2 : Mtime)
    (tok : Nat → Bool) (fs0 : FS) (entries : List TarEntry) :
    obsOf (unpackTar env1 f b1 tok fs0 entries)
      = obsOf (unpackTar env2 f b2 tok fs0 entries) := by
  have hres := loop_keysEq env1 env2 f b1 b2 tok hf entries 0 ⟨fs0, []⟩ ⟨fs0, []⟩ ⟨rfl, rfl⟩
  simp only [unpackTar]
  cases h1 : unpackTarLoop env1 f b1 tok 0 ⟨fs0, []⟩ entries with
  | error x1 =>
    cases h2 : unpackTarLoop env2 f b2 tok 0 ⟨fs0, []⟩ entries with
    | error x2 =>
      obtain ⟨c1, w1⟩ := x1
      obtain ⟨c2, w2⟩ := x2
      rw [h1, h2] at hres
      have hc : c1 = c2 := hres
      rw [hc]
      rfl
    | ok s2 =>
      rw [h1, h2] at hres
      obtain ⟨c1, w1⟩ := x1
      exact absurd hres (by simp [ResRel])
  | ok s1 =>
    cases h2 : unpackTarLoop env2 f b2 tok 0 ⟨fs0, []⟩ entries with
    | error x2 =>
      rw [h1, h2] at hres
      obtain ⟨c2, w2⟩ := x2
      exact absurd hres (by simp [ResRel])
    | ok s2 =>
      rw [h1, h2] at hres
      have hb : s1.bucket = s2.bucket := hres.1
      have hroot : ensureRoot env1 f s1.bucket = ensureRoot env2 f s2.bucket := by
        unfold ensureRoot
        rw [hb, defaultDirMetadata_envfree f hf env1 env2]
      dsimp only
      rw [hroot]
      cases hh : hashBucket (ensureRoot env2 f s2.bucket) with
      | error c => rfl
      | ok hsh => rfl

/-- Witness for C1: a concrete erasing filter set, two distinct process
identities and clock values, and a two-entry stream yield equal observable
results. -/
theorem unpack_wareID_deterministic_witness :
    erasesIdFilters ⟨.exact 7, .exact 7, .exact ⟨100, 0⟩, .keep⟩ = true ∧
    obsOf (unpackTar ⟨10, 10⟩ ⟨.exact 7, .exact 7, .exact ⟨100, 0⟩, .keep⟩ ⟨99, 99⟩ noCancel []
        [⟨⟨["a"], .Type_Dir, 493, 1000, 1000, ⟨6, 6⟩, ""⟩, ""⟩,
         ⟨⟨["a", "b", "c"], .Type_File, 420, 1000, 1000, ⟨5, 5⟩, ""⟩, "hello"⟩])
      = obsOf (unpackTar ⟨20, 20⟩ ⟨.exact 7, .exact 7, .exact ⟨100, 0⟩, .keep⟩ ⟨1, 1⟩ noCancel []
        [⟨⟨["a"], .Type_Dir, 493, 1000, 1000, ⟨6, 6⟩, ""⟩, ""⟩,
         ⟨⟨["a", "b", "c"], .Type_File, 420, 1000, 1000, ⟨5, 5⟩, ""⟩, "hello"⟩]) :=
  ⟨rfl,
   unpack_wareID_deterministic ⟨.exact 7, .exact 7, .exact ⟨100, 0⟩, .keep⟩ rfl
     ⟨10, 10⟩ ⟨20, 20⟩ ⟨99, 99⟩ ⟨1, 1⟩ noCancel [] _⟩

theorem hasDupB_eq_false_iff (l : List String) : hasDupB l = false ↔ l.Nodup := by
  induction l with
  | nil => simp [hasDupB]
  | cons s t ih =>
    rw [List.nodup_cons, ← ih]
    simp only [hasDupB, Bool.or_eq_false_iff]
    constructor
    · rintro ⟨h1, h2⟩
      refine ⟨?_, h2⟩
      intro hmem
      have hx : (t.any fun x => x == s) = true := List.any_eq_true.mpr ⟨s, hmem, by simp⟩
      rw [hx] at h1
      cases h1
    · rintro ⟨h1, h2⟩
      refine ⟨?_, h2⟩
      cases hx : t.any fun x => x == s with
      | false => rfl
      | true =>
        obtain ⟨x, hxm, hxe⟩ := List.any_eq_true.mp hx
        rw [beq_iff_eq] at hxe
        subst hxe
        exact absurd hxm h1

theorem hashBucket_ok_nodup (recs : List Record) (hsh : String)
    (h : hashBucket recs = .ok hsh) :
    ((sortRecs recs).map fun r => r.meta.name).Nodup := by
  unfold hashBucket at h
  by_cases hd : hasDupB ((sortRecs recs).map fun r => nameStr r.meta.name) = true
  · rw [if_pos hd] at h
    cases h
  · have h1 : hasDupB ((sortRecs recs).map fun r => nameStr r.meta.name) = false := by
      cases hx : hasDupB ((sortRecs recs).map fun r => nameStr r.meta.name) with
      | false => rfl
      | true => exact absurd hx hd
    have h2 := (hasDupB_eq_false_iff _).mp h1
    have h3 : ((sortRecs recs).map fun r => r.meta.name).map nameStr
        = (sortRecs recs).map fun r => nameStr r.meta.name := by
      rw [List.map_map]
      rfl
    rw [← h3] at h2
    exact List.Nodup.of_map nameStr h2

theorem repairFold_cons (fs : FS) (a : Record) (t : List Record) :
    repairFold fs (a :: t) = repairFold (repairStep fs a) t := rfl

theorem repairFold_lstat_other (L : List Record) (k : Name) :
    ∀ fs : FS, (∀ r ∈ L, r.meta.name ≠ k) →
      FS.lstat (repairFold fs L) k = fs.lstat k := by
  induction L with
  | nil =>
    intro fs _
    rfl
  | cons a t ih =>
    intro fs hk
    rw [repairFold_cons, ih _ fun r hr => hk r (List.mem_cons_of_mem a hr)]
    unfold repairStep
    by_cases hd : a.meta.ftype = .Type_Dir
    · rw [if_pos hd, lstat_setMtimeIfPresent,
        if_neg fun hc => (hk a (List.mem_cons_self a t)) hc.symm]
    · rw [if_neg hd]

theorem repairFold_sets (r : Record) (hdir : r.meta.ftype = .Type_Dir)
    (L : List Record) :
    ∀ fs : FS, r ∈ L → ((L.map fun x => x.meta.name).Nodup) →
      FS.lstat fs r.meta.name ≠ none →
      (FS.lstat (repairFold fs L) r.meta.name).map (fun x => x.mtime)
        = some r.meta.mtime := by
  induction L with
  | nil =>
    intro fs hr
    cases hr
  | cons a t ih =>
    intro fs hr hnodup hsome
    rw [List.map_cons, List.nodup_cons] at hnodup
    obtain ⟨hna, hnt⟩ := hnodup
    rw [repairFold_cons]
    rcases List.mem_cons.mp hr with rfl | hrt
    · have hother : ∀ x ∈ t, x.meta.name ≠ r.meta.name := by
        intro x hx hc
        exact hna (by rw [← hc]; exact List.mem_map_of_mem _ hx)
      rw [repairFold_lstat_other t r.meta.name _ hother]
      have hstep : FS.lstat (repairStep fs r) r.meta.name
          = (fs.lstat r.meta.name).map fun x => { x with mtime := r.meta.mtime } := by
        unfold repairStep
        rw [if_pos hdir, lstat_setMtimeIfPresent, if_pos rfl]
      rw [hstep]
      obtain ⟨x, hx⟩ := Option.ne_none_iff_exists'.mp hsome
      rw [hx]
      rfl
    · have hkeep : FS.lstat (repairStep fs a) r.meta.name = fs.lstat r.meta.name := by
        unfold repairStep
        by_cases hd : a.meta.ftype = .Type_Dir
        · have hne : ¬ r.meta.name = a.meta.name := by
            intro hc
            exact hna (hc ▸ List.mem_map_of_mem _ hrt)
          rw [if_pos hd, lstat_setMtimeIfPresent, if_neg hne]
        · rw [if_neg hd]
      exact ih (repairStep fs a) hrt hnt (by rw [hkeep]; exact hsome)

theorem rootRec_name (env : Env) (f : FilesetFilters) (recs : List Record) :
    (rootRec env f recs).meta.name = [] := by
  unfold rootRec
  cases hf : recs.find? fun r => decide (r.meta.name = []) with
  | none => rfl
  | some a =>
    have ha := List.find?_some hf
    simpa using ha

theorem rootRec_of_mem (env : Env) (f : FilesetFilters) (recs : List Record)
    (r : Record) (hr : r ∈ recs) (hname : r.meta.name = [])
    (hnodup : (recs.map fun x => x.meta.name).Nodup) :
    rootRec env f recs = r := by
  unfold rootRec
  induction recs with
  | nil => cases hr
  | cons a t ih =>
    rw [List.map_cons, List.nodup_cons] at hnodup
    obtain ⟨hna, hnt⟩ := hnodup
    rcases List.mem_cons.mp hr with rfl | hrt
    · rw [List.find?_cons_of_pos _ (by simp [hname])]
    · have hne : (fun x : Record => decide (x.meta.name = [])) a = false := by
        simp only [decide_eq_false_iff_not]
        intro hc
        exact hna (by rw [hc, ← hname]; exact List.mem_map_of_mem _ hrt)
      rw [List.find?_cons_of_neg _ (by simp [hne])]
      exact ih hrt hnt

theorem keys_mono_placeFile (fs : FS) (m : Metadata) (bump : Mtime) (k : Name)
    (h : k ∈ fs.keys) : k ∈ (fs.placeFile m bump).keys := by
  rw [keys_placeFile]
  split_ifs with hmem
  · exact h
  · exact List.mem_append_left _ h

theorem self_mem_keys_placeFile (fs : FS) (m : Metadata) (bump : Mtime) :
    m.name ∈ (fs.placeFile m bump).keys := by
  rw [keys_placeFile]
  split_ifs with hmem
  · exact hmem
  · exact List.mem_append_right _ (by simp)

theorem conjureOne_placed (env : Env) (f : FilesetFilters) (bump : Mtime)
    (st : PState) (p : Name)
    (h : ∀ r ∈ st.bucket, r.meta.name ∈ FS.keys st.fsst) :
    ∀ r ∈ (conjureOne env f bump st p).bucket,
      r.meta.name ∈ FS.keys (conjureOne env f bump st p).fsst := by
  unfold conjureOne
  cases hst : st.fsst.lstat p with
  | some m => exact h
  | none =>
    intro r hr
    rcases List.mem_append.mp hr with h1 | h1
    · exact keys_mono_placeFile _ _ _ _ (h r h1)
    · rw [List.mem_singleton.mp h1]
      exact self_mem_keys_placeFile st.fsst _ bump

theorem conjureFold_placed (env : Env) (f : FilesetFilters) (bump : Mtime)
    (ps : List Name) :
    ∀ st : PState, (∀ r ∈ st.bucket, r.meta.name ∈ FS.keys st.fsst) →
      ∀ r ∈ (ps.foldl (conjureOne env f bump) st).bucket,
        r.meta.name ∈ FS.keys (ps.foldl (conjureOne env f bump) st).fsst := by
  induction ps with
  | nil => intro st h; exact h
  | cons p pt ih =>
    intro st h
    simp only [List.foldl_cons]
    exact ih _ (conjureOne_placed env f bump st p h)

theorem placed_after_append (stc : PState) (fm : Metadata) (ch : Option String)
    (bump : Mtime)
    (h : ∀ r ∈ stc.bucket, r.meta.name ∈ FS.keys stc.fsst) :
    ∀ r ∈ stc.bucket ++ [(⟨fm, ch⟩ : Record)],
      r.meta.name ∈ FS.keys (stc.fsst.placeFile fm bump) := by
  intro r hr
  rcases List.mem_append.mp hr with h1 | h1
  · exact keys_mono_placeFile _ _ _ _ (h r h1)
  · rw [List.mem_singleton.mp h1]
    exact self_mem_keys_placeFile stc.fsst fm bump

theorem processEntry_placed (env : Env) (f : FilesetFilters) (bump : Mtime)
    (st : PState) (e : TarEntry) (st1 : PState)
    (hp : processEntry env f bump st e = .ok st1)
    (h : ∀ r ∈ st.bucket, r.meta.name ∈ FS.keys st.fsst) :
    ∀ r ∈ st1.bucket, r.meta.name ∈ FS.keys st1.fsst := by
  simp only [processEntry] at hp
  by_cases hbk : strHasPre ".." (nameStr e.meta.name) = true
  · rw [if_pos hbk] at hp
    cases hp
  · rw [if_neg hbk] at hp
    have hc := conjureFold_placed env f bump
      (properAncestors (filtersApply env f e.meta).name) st h
    split at hp <;>
    · cases hp
      exact placed_after_append _ _ _ bump hc

theorem loop_placed (env : Env) (f : FilesetFilters) (bump : Mtime)
    (tok : Nat → Bool) (entries : List TarEntry) :
    ∀ (i : Nat) (st st1 : PState),
      unpackTarLoop env f bump tok i st entries = .ok st1 →
      (∀ r ∈ st.bucket, r.meta.name ∈ FS.keys st.fsst) →
      ∀ r ∈ st1.bucket, r.meta.name ∈ FS.keys st1.fsst := by
  induction entries with
  | nil =>
    intro i st st1 h hinv
    cases h
    exact hinv
  | cons e rest ih =>
    intro i st st1 h hinv
    simp only [unpackTarLoop] at h
    by_cases ht : tok i
    · rw [if_pos ht] at h
      cases h
    · rw [if_neg ht] at h
      cases hp : processEntry env f bump st e with
      | error x =>
        rw [hp] at h
        cases h
      | ok stm =>
        rw [hp] at h
        exact ih (i + 1) stm st1 h (processEntry_placed env f bump st e stm hp hinv)

/-- C6: directory mtime repair — if the entry loop of `unpackTar` succeeds
and the bucket hashes cleanly (so record names are duplicate-free), then
after the post-pass (`dirMtimeFixup`: post-order mtime repair over the
bucket followed by re-application of the root record's metadata) every
directory record's on-disk mtime equals its bucket-recorded mtime, even
though placing children had smeared parent mtimes with the ambient clock. -/
theorem unpack_dir_mtime_repaired (env : Env) (f : FilesetFilters) (bump : Mtime)
    (tok : Nat → Bool) (fs0 : FS) (entries : List TarEntry) (st : PState)
    (hsh : String) (r : Record)
    (hloop : unpackTarLoop env f bump tok 0 ⟨fs0, []⟩ entries = .ok st)
    (hhash : hashBucket (ensureRoot env f st.bucket) = .ok hsh)
    (hr : r ∈ ensureRoot env f st.bucket) (hdir : r.meta.ftype = .Type_Dir) :
    (FS.lstat (dirMtimeFixup env f bump st.fsst (ensureRoot env f st.bucket)) r.meta.name).map
      (fun x => x.mtime) = some r.meta.mtime := by
  have hnodupS : ((sortRecs (ensureRoot env f st.bucket)).map fun x => x.meta.name).Nodup :=
    hashBucket_ok_nodup _ hsh hhash
  have hperm : List.Perm (sortRecs (ensureRoot env f st.bucket)) (ensureRoot env f st.bucket) :=
    List.perm_insertionSort recLe _
  have hnodup : ((ensureRoot env f st.bucket).map fun x => x.meta.name).Nodup :=
    ((hperm.map fun x => x.meta.name).nodup_iff).mp hnodupS
  unfold dirMtimeFixup
  by_cases hroot : r.meta.name = []
  · have hrr : rootRec env f (ensureRoot env f st.bucket) = r :=
      rootRec_of_mem env f _ r hr hroot hnodup
    rw [hrr]
    have hplace2 : FS.placeFile (repairFold st.fsst (postOrderRecs (ensureRoot env f st.bucket)))
        r.meta bump
        = FS.setNode (repairFold st.fsst (postOrderRecs (ensureRoot env f st.bucket)))
            r.meta.name r.meta := by
      unfold FS.placeFile
      rw [if_pos hroot]
    rw [hplace2, lstat_setNode, if_pos rfl]
    rfl
  · have hrn := rootRec_name env f (ensureRoot env f st.bucket)
    have hplace : FS.placeFile (repairFold st.fsst (postOrderRecs (ensureRoot env f st.bucket)))
        (rootRec env f (ensureRoot env f st.bucket)).meta bump
        = FS.setNode (repairFold st.fsst (postOrderRecs (ensureRoot env f st.bucket)))
            []
            (rootRec env f (ensureRoot env f st.bucket)).meta := by
      unfold FS.placeFile
      rw [hrn, if_pos rfl]
    rw [hplace, lstat_setNode, if_neg hroot]
    have hrb : r ∈ st.bucket := by
      unfold ensureRoot at hr
      by_cases hany : st.bucket.any fun x => decide (x.meta.name = [])
      · rw [if_pos hany] at hr
        exact hr
      · rw [if_neg hany] at hr
        rcases List.mem_append.mp hr with h1 | h1
        · exact h1
        · rw [List.mem_singleton.mp h1] at hroot
          exact absurd rfl hroot
    have hkey : r.meta.name ∈ FS.keys st.fsst :=
      loop_placed env f bump tok entries 0 ⟨fs0, []⟩ st hloop
        (by intro r2 hr2; cases hr2) r hrb
    apply repairFold_sets r hdir (postOrderRecs (ensureRoot env f st.bucket)) st.fsst
    · exact List.mem_reverse.mpr (hperm.mem_iff.mpr hr)
    · unfold postOrderRecs
      rw [List.map_reverse]
      exact List.nodup_reverse.mpr hnodupS
    · intro hcnone
      exact (lstat_eq_none_iff st.fsst r.meta.name).mp hcnone hkey

/-- Witness for C6: an empty entry stream conjures a root record; after the
post-pass the root's on-disk mtime equals the recorded default mtime. -/
theorem unpack_dir_mtime_repaired_witness :
    unpackTarLoop ⟨1, 1⟩ ⟨.keep, .keep, .keep, .keep⟩ ⟨5, 5⟩ noCancel 0 ⟨[], []⟩ []
      = .ok ⟨[], []⟩ ∧
    hashBucket (ensureRoot ⟨1, 1⟩ ⟨.keep, .keep, .keep, .keep⟩ [])
      = .ok "sha384-.|d|493|0|0|1262304000.0|#-" ∧
    (⟨defaultDirMetadata ⟨1, 1⟩ ⟨.keep, .keep, .keep, .keep⟩, none⟩ : Record)
      ∈ ensureRoot ⟨1, 1⟩ ⟨.keep, .keep, .keep, .keep⟩ [] ∧
    (FS.lstat (dirMtimeFixup ⟨1, 1⟩ ⟨.keep, .keep, .keep, .keep⟩ ⟨5, 5⟩ []
        (ensureRoot ⟨1, 1⟩ ⟨.keep, .keep, .keep, .keep⟩ []))
      (⟨defaultDirMetadata ⟨1, 1⟩ ⟨.keep, .keep, .keep, .keep⟩, none⟩ : Record).meta.name).map
      (fun x => x.mtime)
      = some (⟨defaultDirMetadata ⟨1, 1⟩ ⟨.keep, .keep, .keep, .keep⟩, none⟩ : Record).meta.mtime :=
  ⟨rfl, rfl, by decide,
   unpack_dir_mtime_repaired ⟨1, 1⟩ ⟨.keep, .keep, .keep, .keep⟩ ⟨5, 5⟩ noCancel [] [] ⟨[], []⟩
     "sha384-.|d|493|0|0|1262304000.0|#-"
     ⟨defaultDirMetadata ⟨1, 1⟩ ⟨.keep, .keep, .keep, .keep⟩, none⟩
     rfl rfl (by decide) rfl⟩

end Rio
